import Mathlib

/-!
Formal model of `csv_to_latex_names.py`.

The script reads name records, folds them to an accent- and case-insensitive
form for duplicate detection, resolves each duplicate group by preferring the
variant with more decomposable (accented) characters, capitalizes single-word
family names, sorts by a last-word-of-family sort key, and writes a LaTeX
document with the special characters escaped.

Shallow embedding conventions:
- a Python string is its list of Unicode code points, `List Nat`;
- `unicodedata` (NFKD decomposition, decomposition test) is modelled on the
  fragment of Unicode exercised by the development: u-umlaut (U+00FC/U+00DC)
  and e-acute (U+00E9/U+00C9) decompose, every other code point (in
  particular all of ASCII, and undecomposable symbols such as CJK ideographs)
  is NFKD-inert, matching the real Unicode data for those code points;
- `str.lower`/`str.upper`/`str.capitalize` are modelled pointwise on the same
  fragment (ASCII letters plus the two accented pairs);
- `str.strip`/`str.split` use the ASCII whitespace set;
- file I/O is dropped: the CSV reader becomes a list of
  `(given_name, family_name)` rows, the report `print` calls become an
  accumulated report list, and the LaTeX writer's per-name escaping is the
  function `latex_escape`.
-/

/-- a Python string, as its list of Unicode code points -/
abbrev PyStr : Type := List Nat

/-- a name record, stored as `(family, given)` exactly as in `names_dict` -/
abbrev Rec : Type := PyStr × PyStr

/-- whitespace test used by `str.strip` and `str.split` (ASCII whitespace) -/
def isSpace (c : Nat) : Bool :=
  decide (c = 32 ∨ c = 9 ∨ c = 10 ∨ c = 11 ∨ c = 12 ∨ c = 13)

/-- membership in the ASCII range: `encode('ASCII','ignore')` keeps exactly
the code points below 128 -/
def isAscii (c : Nat) : Bool := decide (c < 128)

/-- NFKD decomposition of one code point (`unicodedata.normalize('NFKD', ...)`
applied pointwise), on the modelled Unicode fragment. 776 is the combining
diaeresis U+0308 and 769 the combining acute U+0301; 252/220 are u/U-umlaut
and 233/201 are e/E-acute. All other code points are NFKD-inert. -/
def nfkdChar (c : Nat) : List Nat :=
  if c = 252 then [117, 776]
  else if c = 220 then [85, 776]
  else if c = 233 then [101, 769]
  else if c = 201 then [69, 769]
  else [c]

/-- test used by `count_accents`: does `unicodedata.decomposition(c)` return a
non-empty decomposition mapping? True exactly on the table domain of
`nfkdChar`. -/
def hasDecomp (c : Nat) : Bool :=
  decide (c = 252 ∨ c = 220 ∨ c = 233 ∨ c = 201)

/-- pointwise model of `str.lower` on the modelled fragment -/
def lowerChar (c : Nat) : Nat :=
  if 65 ≤ c ∧ c ≤ 90 then c + 32
  else if c = 220 then 252
  else if c = 201 then 233
  else c

/-- pointwise model of `str.upper` (and of the title-casing of the first
character in `str.capitalize`) on the modelled fragment -/
def upperChar (c : Nat) : Nat :=
  if 97 ≤ c ∧ c ≤ 122 then c - 32
  else if c = 252 then 220
  else if c = 233 then 201
  else c

/-- model of `str.lower` on whole strings -/
def pyLower (s : PyStr) : PyStr := s.map lowerChar

/-- model of `str.strip()`: remove leading and trailing whitespace -/
def pyStrip (s : PyStr) : PyStr :=
  List.rdropWhile isSpace (List.dropWhile isSpace s)

/-- the `strip_accents` helper of `get_sort_key`:
`unicodedata.normalize('NFKD', s).encode('ASCII', 'ignore').decode('ASCII')` -/
def strip_accents (s : PyStr) : PyStr :=
  (s.flatMap nfkdChar).filter isAscii

/-- `normalize_name`: NFKD-decompose, drop non-ASCII, strip, lower; the
folding function used for duplicate detection -/
def normalize_name (s : PyStr) : PyStr :=
  pyLower (pyStrip ((s.flatMap nfkdChar).filter isAscii))

/-- accumulator loop of `str.split()`: split on whitespace runs, dropping
empty tokens; `acc` holds the current token reversed -/
def splitGo : PyStr → PyStr → List PyStr
  | [], acc => if acc = [] then [] else [acc.reverse]
  | c :: t, acc =>
      if isSpace c then
        if acc = [] then splitGo t [] else acc.reverse :: splitGo t []
      else splitGo t (c :: acc)

/-- model of `str.split()` with no separator argument -/
def pySplit (s : PyStr) : List PyStr := splitGo s []

/-- model of `str.capitalize()`: first character upper-cased, the rest
lower-cased; the empty string is unchanged -/
def pyCapitalize (w : PyStr) : PyStr :=
  match w with
  | [] => []
  | c :: t => upperChar c :: t.map lowerChar

/-- `capitalize_if_single_word`: capitalize the family name when it is a
single whitespace-delimited word, otherwise return it unchanged -/
def capitalize_if_single_word (family : PyStr) : PyStr :=
  match pySplit family with
  | [w] => pyCapitalize w
  | _ => family

/-- `get_sort_key`: `(last word of family, family, given)`, each passed
through `strip_accents` and `.lower()`; the last word falls back to the whole
family name when `family.split()` is empty -/
def get_sort_key (family given : PyStr) : PyStr × PyStr × PyStr :=
  let words := pySplit family
  let last_word := words.getLastD family
  (pyLower (strip_accents last_word),
   pyLower (strip_accents family),
   pyLower (strip_accents given))

/-- `count_accents`: number of characters with a non-empty Unicode
decomposition -/
def count_accents (s : PyStr) : Nat := (s.filter hasDecomp).length

/-- accent score of a record: `count_accents(family) + count_accents(given)` -/
def accentScore (r : Rec) : Nat := count_accents r.1 + count_accents r.2

/-- the folded duplicate-detection key of a record:
`(normalize_name(family), normalize_name(given))` -/
def recKey (r : Rec) : PyStr × PyStr := (normalize_name r.1, normalize_name r.2)

/-- lookup in the insertion-ordered association list modelling `names_dict` -/
def lookupD : List ((PyStr × PyStr) × Rec) → (PyStr × PyStr) → Option Rec
  | [], _ => none
  | e :: d, k => if e.1 = k then some e.2 else lookupD d k

/-- in-place update of the association list: replace the value at an existing
key (keeping its position, as a Python dict does), or append a new binding -/
def setD : List ((PyStr × PyStr) × Rec) → (PyStr × PyStr) → Rec →
    List ((PyStr × PyStr) × Rec)
  | [], k, v => [(k, v)]
  | e :: d, k, v => if e.1 = k then (k, v) :: d else e :: setD d k v

/-- resolver state: the `names_dict` association list plus the accumulated
console report, each report entry being `(kept record, removed record)` -/
structure RState where
  dict : List ((PyStr × PyStr) × Rec)
  report : List (Rec × Rec)

/-- processing of one CSV row `(given_name, family_name)` inside the loop of
`read_unique_names`: strip both fields, skip incomplete rows, otherwise
resolve against the current representative of the folded key -/
def processRow (st : RState) (row : PyStr × PyStr) : RState :=
  let given := pyStrip row.1
  let family := pyStrip row.2
  if given = [] ∨ family = [] then st
  else
    let norm_pair := (normalize_name family, normalize_name given)
    match lookupD st.dict norm_pair with
    | some prev =>
        if accentScore (family, given) > accentScore prev then
          { dict := setD st.dict norm_pair (family, given),
            report := st.report ++ [((family, given), prev)] }
        else
          { dict := st.dict, report := st.report ++ [(prev, (family, given))] }
    | none =>
        { dict := st.dict ++ [(norm_pair, (family, given))],
          report := st.report }

/-- the duplicate-resolution phase of `read_unique_names` over a whole list of
CSV rows -/
def resolveRows (rows : List (PyStr × PyStr)) : RState :=
  rows.foldl processRow ⟨[], []⟩

/-- the valid records a row list contributes: stripped `(family, given)` pairs
of the rows whose stripped fields are both non-empty -/
def cleanRows (rows : List (PyStr × PyStr)) : List Rec :=
  rows.filterMap fun row =>
    let given := pyStrip row.1
    let family := pyStrip row.2
    if given = [] ∨ family = [] then none else some (family, given)

/-- strict lexicographic comparison of Python strings -/
def strLt : PyStr → PyStr → Bool
  | [], [] => false
  | [], _ :: _ => true
  | _ :: _, [] => false
  | a :: s, b :: t => decide (a < b) || (decide (a = b) && strLt s t)

/-- lexicographic comparison of sort-key triples, as Python compares tuples -/
def keyLe (k l : PyStr × PyStr × PyStr) : Bool :=
  strLt k.1 l.1 ||
    (decide (k.1 = l.1) &&
      (strLt k.2.1 l.2.1 ||
        (decide (k.2.1 = l.2.1) &&
          (strLt k.2.2 l.2.2 || decide (k.2.2 = l.2.2)))))

/-- record comparison used by the final `sorted(..., key=get_sort_key)` -/
def recLe (a b : Rec) : Bool :=
  keyLe (get_sort_key a.1 a.2) (get_sort_key b.1 b.2)

/-- insertion step of the sort modelling Python's stable `sorted` -/
def orderedInsertB (a : Rec) : List Rec → List Rec
  | [] => [a]
  | b :: l => if recLe a b then a :: b :: l else b :: orderedInsertB a l

/-- deterministic stable sort modelling Python's `sorted`; the claims proved
below depend only on the multiset of elements and on determinism -/
def insertionSortB : List Rec → List Rec
  | [] => []
  | a :: l => orderedInsertB a (insertionSortB l)

/-- `read_unique_names` on a list of rows: resolve duplicates, capitalize
single-word family names of the survivors, sort by the custom key -/
def read_unique_names (rows : List (PyStr × PyStr)) : List Rec :=
  insertionSortB
    (((resolveRows rows).dict.map (·.2)).map
      (fun r => (capitalize_if_single_word r.1, r.2)))

/-- model of Python `str.replace(old, new)` for a single-character `old`
(every `replace` in `latex_escape` has a single-character needle) -/
def replaceChar (o : Nat) (new : PyStr) (s : PyStr) : PyStr :=
  s.flatMap fun c => if c = o then new else [c]

/-- `latex_escape`: the chain of ten `str.replace` calls of the source, in
source order; the replacement strings are the code points of
`\textbackslash{}`, `\&`, `\%`, `\$`, `\#`, `\_`, `\{`, `\}`,
`\textasciitilde{}`, `\textasciicircum{}` -/
def latex_escape (s : PyStr) : PyStr :=
  let s1 := replaceChar 92
    [92, 116, 101, 120, 116, 98, 97, 99, 107, 115, 108, 97, 115, 104, 123, 125] s
  let s2 := replaceChar 38 [92, 38] s1
  let s3 := replaceChar 37 [92, 37] s2
  let s4 := replaceChar 36 [92, 36] s3
  let s5 := replaceChar 35 [92, 35] s4
  let s6 := replaceChar 95 [92, 95] s5
  let s7 := replaceChar 123 [92, 123] s6
  let s8 := replaceChar 125 [92, 125] s7
  let s9 := replaceChar 126
    [92, 116, 101, 120, 116, 97, 115, 99, 105, 105, 116, 105, 108, 100, 101, 123, 125] s8
  replaceChar 94
    [92, 116, 101, 120, 116, 97, 115, 99, 105, 105, 99, 105, 114, 99, 117, 109, 123, 125] s9

/-- does the first list start the second one? -/
def startsWith : PyStr → PyStr → Bool
  | [], _ => true
  | _ :: _, [] => false
  | a :: p, b :: s => decide (a = b) && startsWith p s

/-- code points of the control word `textbackslash` -/
def cmdBackslash : PyStr := [116, 101, 120, 116, 98, 97, 99, 107, 115, 108, 97, 115, 104]

/-- code points of the control word `textasciitilde` -/
def cmdTilde : PyStr := [116, 101, 120, 116, 97, 115, 99, 105, 105, 116, 105, 108, 100, 101]

/-- code points of the control word `textasciicircum` -/
def cmdCircum : PyStr := [116, 101, 120, 116, 97, 115, 99, 105, 105, 99, 105, 114, 99, 117, 109]

/-- consume one empty group `\x7b\x7d` after a control word, if present -/
def dropEmptyGroup : PyStr → PyStr
  | 123 :: 125 :: t => t
  | s => s

/-- Modelled from the spec: the output format's native processor. This is the
LaTeX reading of the escape sequences the formatter can emit — a control word
`\textbackslash`, `\textasciitilde` or `\textasciicircum` (each rendering one
glyph and absorbing a following empty group) or an escaped single special
character after a backslash; every other character renders as itself. The
fuel argument only drives the recursion; `latexRender` supplies enough of
it. -/
def renderGo : Nat → PyStr → PyStr
  | 0, s => s
  | _ + 1, [] => []
  | fuel + 1, 92 :: rest =>
      if startsWith cmdBackslash rest then
        92 :: renderGo fuel (dropEmptyGroup (rest.drop 13))
      else if startsWith cmdTilde rest then
        126 :: renderGo fuel (dropEmptyGroup (rest.drop 14))
      else if startsWith cmdCircum rest then
        94 :: renderGo fuel (dropEmptyGroup (rest.drop 15))
      else
        match rest with
        | c :: t =>
            if c = 38 ∨ c = 37 ∨ c = 36 ∨ c = 35 ∨ c = 95 ∨ c = 123 ∨ c = 125
            then c :: renderGo fuel t
            else 92 :: renderGo fuel rest
        | [] => [92]
  | fuel + 1, c :: rest => c :: renderGo fuel rest

/-- Modelled from the spec: rendering of a formatted string by the LaTeX
processor -/
def latexRender (s : PyStr) : PyStr := renderGo (s.length + 1) s

/-- Modelled from the spec: the §4.1 folding function exactly as the claims
state it — NFKD decomposition, drop non-ASCII, lowercase, then trim. It
differs from `normalize_name` only in applying the final trim after
lowering. -/
def fold_spec (s : PyStr) : PyStr :=
  pyStrip (pyLower ((s.flatMap nfkdChar).filter isAscii))

/-- Modelled from the spec: the last word of the family name as the sort-key
claim words it — the family itself when it contains no whitespace, otherwise
the final whitespace-delimited token -/
def claimLastWord (family : PyStr) : PyStr :=
  if family.any isSpace then (pySplit family).getLastD [] else family

/-- Modelled from the spec: the sort key the claim asserts, built from
`fold_spec` -/
def claimKey (family given : PyStr) : PyStr × PyStr × PyStr :=
  (fold_spec (claimLastWord family), fold_spec family, fold_spec given)

/-- Modelled from the spec: the pairwise-incremental representative rule — the
first arrival of a key becomes representative, and a later arrival replaces
the current representative exactly when its accent score is strictly larger
(ties keep the incumbent) -/
def specPairwiseRep (o : Option Rec) (r : Rec) : Option Rec :=
  match o with
  | none => some r
  | some p => some (if accentScore r > accentScore p then r else p)

/-- the per-character ASCII projection underlying `strip_accents`: NFKD
decomposition followed by dropping the non-ASCII code points -/
def charFold (c : Nat) : List Nat := (nfkdChar c).filter isAscii

/-- well-formedness of the `names_dict` model: every binding's key is the
folded key of its value, and the keys are pairwise distinct -/
def GoodDict (d : List ((PyStr × PyStr) × Rec)) : Prop :=
  (∀ e ∈ d, e.1 = recKey e.2) ∧ (d.map (·.1)).Nodup

/-! Character-level lemmas about the modelled Unicode fragment. -/

theorem nfkdChar_ascii (c : Nat) (h : c < 128) : nfkdChar c = [c] := by
  unfold nfkdChar
  rw [if_neg (by omega), if_neg (by omega), if_neg (by omega), if_neg (by omega)]

theorem charFold_ascii (c : Nat) (h : c < 128) : charFold c = [c] := by
  unfold charFold
  rw [nfkdChar_ascii c h]
  simp [isAscii, h]

theorem lowerChar_lt_128 (c : Nat) (h : c < 128) : lowerChar c < 128 := by
  unfold lowerChar
  split_ifs <;> omega

theorem lowerChar_idem (c : Nat) : lowerChar (lowerChar c) = lowerChar c := by
  unfold lowerChar
  split_ifs <;> omega

theorem isSpace_lowerChar (c : Nat) : isSpace (lowerChar c) = isSpace c := by
  unfold lowerChar isSpace
  split_ifs with h1 h2 h3
  · rw [decide_eq_decide]; omega
  · subst h2; rfl
  · subst h3; rfl
  · rfl

theorem isSpace_lt_128 (c : Nat) (h : isSpace c = true) : c < 128 := by
  unfold isSpace at h
  rw [decide_eq_true_eq] at h
  omega

theorem lowerChar_of_upper (c : Nat) (h1 : 65 ≤ c) (h2 : c ≤ 90) :
    lowerChar c = c + 32 := by
  unfold lowerChar
  rw [if_pos ⟨h1, h2⟩]

theorem lowerChar_of_no_case (c : Nat) (h1 : ¬(65 ≤ c ∧ c ≤ 90)) (h2 : c ≠ 220)
    (h3 : c ≠ 201) : lowerChar c = c := by
  unfold lowerChar
  rw [if_neg h1, if_neg h2, if_neg h3]

theorem map_lower_charFold_upper (c : Nat) :
    (charFold (upperChar c)).map lowerChar = (charFold c).map lowerChar := by
  unfold upperChar
  split_ifs with h1 h2 h3
  · rw [charFold_ascii (c - 32) (by omega), charFold_ascii c (by omega)]
    simp only [List.map_cons, List.map_nil]
    rw [lowerChar_of_upper (c - 32) (by omega) (by omega),
      lowerChar_of_no_case c (by omega) (by omega) (by omega)]
    simp only [List.cons.injEq, and_true]
    omega
  · subst h2; rfl
  · subst h3; rfl
  · rfl

theorem map_lower_charFold_lower (c : Nat) :
    (charFold (lowerChar c)).map lowerChar = (charFold c).map lowerChar := by
  by_cases h1 : 65 ≤ c ∧ c ≤ 90
  · rw [lowerChar_of_upper c h1.1 h1.2,
      charFold_ascii (c + 32) (by omega), charFold_ascii c (by omega)]
    simp only [List.map_cons, List.map_nil]
    rw [lowerChar_of_no_case (c + 32) (by omega) (by omega) (by omega),
      lowerChar_of_upper c h1.1 h1.2]
  · by_cases h2 : c = 220
    · subst h2; rfl
    · by_cases h3 : c = 201
      · subst h3; rfl
      · rw [lowerChar_of_no_case c h1 h2 h3]

/-! String-level lemmas about folding, stripping and lowering. -/

theorem strip_accents_eq_flatMap (s : PyStr) : strip_accents s = s.flatMap charFold := by
  induction s with
  | nil => rfl
  | cons c t ih =>
      have h : strip_accents (c :: t) = (nfkdChar c).filter isAscii ++ strip_accents t := by
        simp [strip_accents, List.filter_append]
      rw [h, ih, List.flatMap_cons]
      rfl

theorem strip_accents_append (s t : PyStr) :
    strip_accents (s ++ t) = strip_accents s ++ strip_accents t := by
  simp [strip_accents_eq_flatMap, List.flatMap_append]

theorem dropWhile_space_map_lower (s : PyStr) :
    List.dropWhile isSpace (s.map lowerChar) = (List.dropWhile isSpace s).map lowerChar := by
  induction s with
  | nil => rfl
  | cons c t ih =>
      simp only [List.map_cons, List.dropWhile_cons, isSpace_lowerChar]
      cases h : isSpace c <;> simp [h, ih]

theorem rdropWhile_space_map_lower (s : PyStr) :
    List.rdropWhile isSpace (s.map lowerChar) = (List.rdropWhile isSpace s).map lowerChar := by
  unfold List.rdropWhile
  rw [← List.map_reverse, dropWhile_space_map_lower, List.map_reverse]

theorem pyStrip_pyLower (s : PyStr) : pyStrip (pyLower s) = pyLower (pyStrip s) := by
  unfold pyStrip pyLower
  rw [dropWhile_space_map_lower, rdropWhile_space_map_lower]

theorem normalize_name_eq_strip_lower (s : PyStr) :
    normalize_name s = pyStrip (pyLower (strip_accents s)) := by
  unfold normalize_name
  rw [pyStrip_pyLower]
  rfl

theorem dropWhile_append_ite (p : Nat → Bool) (x y : PyStr) :
    List.dropWhile p (x ++ y) =
      if List.dropWhile p x = [] then List.dropWhile p y
      else List.dropWhile p x ++ y := by
  induction x with
  | nil => simp
  | cons c t ih =>
      simp only [List.cons_append, List.dropWhile_cons]
      cases h : p c <;> simp [h, ih]

theorem dropWhile_space_of_all (ws s : PyStr) (h : ∀ c ∈ ws, isSpace c = true) :
    List.dropWhile isSpace (ws ++ s) = List.dropWhile isSpace s := by
  induction ws with
  | nil => rfl
  | cons c t ih =>
      rw [List.cons_append, List.dropWhile_cons, if_pos (h c (List.mem_cons_self c t))]
      exact ih fun d hd => h d (List.mem_cons_of_mem c hd)

theorem dropWhile_space_nil_of_all (ws : PyStr) (h : ∀ c ∈ ws, isSpace c = true) :
    List.dropWhile isSpace ws = [] := by
  have h2 := dropWhile_space_of_all ws [] h
  simpa using h2

theorem rdropWhile_space_of_all (ws s : PyStr) (h : ∀ c ∈ ws, isSpace c = true) :
    List.rdropWhile isSpace (s ++ ws) = List.rdropWhile isSpace s := by
  unfold List.rdropWhile
  rw [List.reverse_append, dropWhile_space_of_all]
  intro c hc
  exact h c (by simpa using hc)

theorem pyStrip_space_left (ws s : PyStr) (h : ∀ c ∈ ws, isSpace c = true) :
    pyStrip (ws ++ s) = pyStrip s := by
  unfold pyStrip
  rw [dropWhile_space_of_all ws s h]

theorem pyStrip_space_right (s ws : PyStr) (h : ∀ c ∈ ws, isSpace c = true) :
    pyStrip (s ++ ws) = pyStrip s := by
  unfold pyStrip
  rw [dropWhile_append_ite]
  by_cases hd : List.dropWhile isSpace s = []
  · rw [if_pos hd, dropWhile_space_nil_of_all ws h, hd]
  · rw [if_neg hd, rdropWhile_space_of_all ws _ h]

theorem pyStrip_sandwich (ws1 s ws2 : PyStr) (h1 : ∀ c ∈ ws1, isSpace c = true)
    (h2 : ∀ c ∈ ws2, isSpace c = true) :
    pyStrip (ws1 ++ s ++ ws2) = pyStrip s := by
  rw [List.append_assoc, pyStrip_space_left ws1 (s ++ ws2) h1,
    pyStrip_space_right s ws2 h2]

theorem dropWhile_self_of_eq (s : PyStr) (h : List.dropWhile isSpace s = s) :
    List.dropWhile isSpace (List.rdropWhile isSpace s) = List.rdropWhile isSpace s := by
  cases s with
  | nil => simp [List.rdropWhile]
  | cons c t =>
      have hc : isSpace c = false := by
        cases hh : isSpace c
        · rfl
        · rw [List.dropWhile_cons, if_pos hh] at h
          have hlen := (List.dropWhile_sublist (l := t) isSpace).length_le
          rw [h] at hlen
          simp at hlen
      unfold List.rdropWhile
      rw [List.reverse_cons, dropWhile_append_ite]
      by_cases hrt : List.dropWhile isSpace t.reverse = []
      · rw [if_pos hrt]
        rw [List.dropWhile_cons, hc]
        simp [hc]
      · rw [if_neg hrt, List.reverse_append]
        simp only [List.reverse_cons, List.reverse_nil, List.nil_append, List.singleton_append]
        rw [List.dropWhile_cons, hc]
        simp

theorem pyStrip_idem (s : PyStr) : pyStrip (pyStrip s) = pyStrip s := by
  unfold pyStrip
  rw [dropWhile_self_of_eq _ (List.dropWhile_idempotent isSpace s), List.rdropWhile_idempotent]

theorem flatMap_charFold_of_ascii (s : PyStr) (h : ∀ c ∈ s, c < 128) :
    s.flatMap charFold = s := by
  induction s with
  | nil => rfl
  | cons c t ih =>
      rw [List.flatMap_cons, charFold_ascii c (h c (List.mem_cons_self c t)),
        ih (fun d hd => h d (List.mem_cons_of_mem c hd))]
      rfl

theorem strip_accents_of_ascii (s : PyStr) (h : ∀ c ∈ s, c < 128) :
    strip_accents s = s := by
  rw [strip_accents_eq_flatMap, flatMap_charFold_of_ascii s h]

theorem mem_pyStrip (s : PyStr) (c : Nat) (h : c ∈ pyStrip s) : c ∈ s := by
  unfold pyStrip List.rdropWhile at h
  rw [List.mem_reverse] at h
  have h2 := (List.dropWhile_sublist _).subset h
  rw [List.mem_reverse] at h2
  exact (List.dropWhile_sublist _).subset h2

theorem normalize_name_ascii (s : PyStr) : ∀ c ∈ normalize_name s, c < 128 := by
  intro c hc
  unfold normalize_name pyLower at hc
  rw [List.mem_map] at hc
  obtain ⟨d, hd, rfl⟩ := hc
  have hd2 := mem_pyStrip _ _ hd
  rw [List.mem_filter] at hd2
  have hd3 : d < 128 := by
    have hd4 := hd2.2
    unfold isAscii at hd4
    rwa [decide_eq_true_eq] at hd4
  exact lowerChar_lt_128 d hd3

theorem pyLower_idem (s : PyStr) : pyLower (pyLower s) = pyLower s := by
  unfold pyLower
  rw [List.map_map]
  exact List.map_congr_left (fun c _ => lowerChar_idem c)

/-! Lemmas about `str.split()` and capitalization. -/

theorem splitGo_ne_nil (s : PyStr) : ∀ acc, acc ≠ [] → splitGo s acc ≠ [] := by
  induction s with
  | nil =>
      intro acc h
      simp [splitGo, h]
  | cons c t ih =>
      intro acc h
      unfold splitGo
      cases hc : isSpace c
      · rw [if_neg (by simp)]
        exact ih (c :: acc) (by simp)
      · rw [if_pos rfl, if_neg h]
        simp

theorem splitGo_nil_all_space (s : PyStr) :
    splitGo s [] = [] → ∀ c ∈ s, isSpace c = true := by
  induction s with
  | nil => simp
  | cons c t ih =>
      intro h
      unfold splitGo at h
      cases hc : isSpace c
      · rw [hc, if_neg (by simp)] at h
        exact absurd h (splitGo_ne_nil t (c :: []) (by simp))
      · rw [hc, if_pos rfl, if_pos rfl] at h
        intro d hd
        rcases List.mem_cons.mp hd with h1 | h2
        · rw [h1]; exact hc
        · exact ih h d h2

theorem splitGo_single (s : PyStr) :
    ∀ acc w, splitGo s acc = [w] →
      ∃ ws a b, s = ws ++ a ++ b ∧ (∀ c ∈ ws, isSpace c = true) ∧
        (∀ c ∈ b, isSpace c = true) ∧ w = acc.reverse ++ a ∧ (acc = [] ∨ ws = []) := by
  induction s with
  | nil =>
      intro acc w h
      unfold splitGo at h
      by_cases ha : acc = []
      · rw [if_pos ha] at h
        exact absurd h (by simp)
      · rw [if_neg ha] at h
        have hw : w = acc.reverse := by
          have h2 := h
          simp only [List.cons.injEq] at h2
          exact h2.1.symm
        exact ⟨[], [], [], by simp, by simp, by simp, by simp [hw], Or.inr rfl⟩
  | cons c t ih =>
      intro acc w h
      unfold splitGo at h
      cases hc : isSpace c
      · rw [hc, if_neg (by simp)] at h
        obtain ⟨ws, a, b, ht, hws, hb, hw, hdisj⟩ := ih (c :: acc) w h
        have hws0 : ws = [] := hdisj.resolve_left (by simp)
        subst hws0
        refine ⟨[], c :: a, b, ?_, by simp, hb, ?_, Or.inr rfl⟩
        · rw [List.nil_append] at ht ⊢
          rw [List.cons_append, ← ht]
        · rw [hw, List.reverse_cons, List.append_assoc]
          rfl
      · rw [hc, if_pos rfl] at h
        by_cases ha : acc = []
        · rw [if_pos ha] at h
          obtain ⟨ws, a, b, ht, hws, hb, hw, _⟩ := ih [] w h
          refine ⟨c :: ws, a, b, by rw [ht]; rfl, ?_, hb, ?_, Or.inl ha⟩
          · intro d hd
            rcases List.mem_cons.mp hd with h1 | h2
            · rw [h1]; exact hc
            · exact hws d h2
          · rw [ha]
            simpa using hw
        · rw [if_neg ha] at h
          simp only [List.cons.injEq] at h
          refine ⟨[], [], c :: t, by simp, by simp, ?_, by simp [h.1.symm], Or.inr rfl⟩
          intro d hd
          rcases List.mem_cons.mp hd with h1 | h2
          · rw [h1]; exact hc
          · exact splitGo_nil_all_space t h.2 d h2

theorem pySplit_single (f w : PyStr) (h : pySplit f = [w]) :
    ∃ ws1 ws2, f = ws1 ++ w ++ ws2 ∧ (∀ c ∈ ws1, isSpace c = true) ∧
      (∀ c ∈ ws2, isSpace c = true) := by
  obtain ⟨ws, a, b, ht, hws, hb, hw, _⟩ := splitGo_single f [] w h
  rw [List.reverse_nil, List.nil_append] at hw
  exact ⟨ws, b, by rw [ht, hw], hws, hb⟩

theorem strip_accents_of_space (ws : PyStr) (h : ∀ c ∈ ws, isSpace c = true) :
    strip_accents ws = ws :=
  strip_accents_of_ascii ws (fun c hc => isSpace_lt_128 c (h c hc))

theorem pyLower_space_all (ws : PyStr) (h : ∀ c ∈ ws, isSpace c = true) :
    ∀ c ∈ pyLower ws, isSpace c = true := by
  intro c hc
  unfold pyLower at hc
  rw [List.mem_map] at hc
  obtain ⟨d, hd, rfl⟩ := hc
  rw [isSpace_lowerChar]
  exact h d hd

theorem normalize_name_sandwich (ws1 s ws2 : PyStr) (h1 : ∀ c ∈ ws1, isSpace c = true)
    (h2 : ∀ c ∈ ws2, isSpace c = true) :
    normalize_name (ws1 ++ s ++ ws2) = normalize_name s := by
  rw [normalize_name_eq_strip_lower, normalize_name_eq_strip_lower,
    List.append_assoc, strip_accents_append, strip_accents_append,
    strip_accents_of_space ws1 h1, strip_accents_of_space ws2 h2]
  unfold pyLower
  rw [List.map_append, List.map_append, ← List.append_assoc]
  exact pyStrip_sandwich _ _ _ (pyLower_space_all ws1 h1) (pyLower_space_all ws2 h2)

theorem map_lower_strip_accents_map_lower (t : PyStr) :
    pyLower (strip_accents (t.map lowerChar)) = pyLower (strip_accents t) := by
  rw [strip_accents_eq_flatMap, strip_accents_eq_flatMap]
  unfold pyLower
  induction t with
  | nil => rfl
  | cons c u ih =>
      simp only [List.map_cons, List.flatMap_cons, List.map_append]
      rw [map_lower_charFold_lower c]
      simp only [List.map_append] at ih
      rw [ih]

theorem normalize_pyCapitalize (w : PyStr) :
    normalize_name (pyCapitalize w) = normalize_name w := by
  cases w with
  | nil => rfl
  | cons c t =>
      rw [normalize_name_eq_strip_lower, normalize_name_eq_strip_lower]
      have hsa : ∀ (x : Nat) (u : PyStr),
          strip_accents (x :: u) = charFold x ++ strip_accents u := by
        intro x u
        rw [strip_accents_eq_flatMap, strip_accents_eq_flatMap, List.flatMap_cons]
      rw [show pyCapitalize (c :: t) = upperChar c :: t.map lowerChar from rfl,
        hsa, hsa]
      unfold pyLower
      rw [List.map_append, List.map_append, map_lower_charFold_upper c]
      have h2 := map_lower_strip_accents_map_lower t
      unfold pyLower at h2
      rw [h2]

theorem normalize_capitalize (f : PyStr) :
    normalize_name (capitalize_if_single_word f) = normalize_name f := by
  rcases hf : pySplit f with _ | ⟨w, ws⟩
  · simp [capitalize_if_single_word, hf]
  · rcases ws with _ | ⟨w2, ws2⟩
    · have hcap : capitalize_if_single_word f = pyCapitalize w := by
        simp [capitalize_if_single_word, hf]
      obtain ⟨ws1, wsr, hdec, h1, h2⟩ := pySplit_single f w hf
      rw [hcap, normalize_pyCapitalize, hdec, normalize_name_sandwich ws1 w wsr h1 h2]
    · simp [capitalize_if_single_word, hf]

theorem normalize_name_idem (s : PyStr) :
    normalize_name (normalize_name s) = normalize_name s := by
  have hascii := normalize_name_ascii s
  rw [normalize_name_eq_strip_lower (normalize_name s), strip_accents_of_ascii _ hascii]
  rw [normalize_name_eq_strip_lower s]
  rw [pyStrip_pyLower, pyStrip_idem, pyStrip_pyLower, pyLower_idem]

/-! Lemmas about the association list modelling `names_dict`. -/

theorem lookupD_none_iff (d : List ((PyStr × PyStr) × Rec)) (k : PyStr × PyStr) :
    lookupD d k = none ↔ ∀ e ∈ d, e.1 ≠ k := by
  induction d with
  | nil => simp [lookupD]
  | cons e d ih =>
      constructor
      · intro h
        unfold lookupD at h
        by_cases he : e.1 = k
        · rw [if_pos he] at h
          exact absurd h (by simp)
        · rw [if_neg he] at h
          intro e2 he2
          rcases List.mem_cons.mp he2 with h1 | h2
          · rw [h1]; exact he
          · exact (ih.mp h) e2 h2
      · intro h
        unfold lookupD
        rw [if_neg (h e (List.mem_cons_self e d))]
        exact ih.mpr (fun e2 he2 => h e2 (List.mem_cons_of_mem e he2))

theorem lookupD_some_decomp (d : List ((PyStr × PyStr) × Rec)) (k : PyStr × PyStr)
    (p : Rec) (h : lookupD d k = some p) (v : Rec) :
    ∃ l1 l2, d = l1 ++ (k, p) :: l2 ∧ (∀ e ∈ l1, e.1 ≠ k) ∧
      setD d k v = l1 ++ (k, v) :: l2 := by
  induction d with
  | nil => exact absurd h (by simp [lookupD])
  | cons e d ih =>
      unfold lookupD at h
      by_cases he : e.1 = k
      · rw [if_pos he] at h
        have h2 := Option.some.inj h
        obtain ⟨e1, e2⟩ := e
        simp only at he h2
        subst he
        subst h2
        refine ⟨[], d, by simp, by simp, ?_⟩
        unfold setD
        rw [if_pos rfl]
        simp
      · rw [if_neg he] at h
        obtain ⟨l1, l2, hd, hl1, hset⟩ := ih h
        refine ⟨e :: l1, l2, by rw [hd]; rfl, ?_, ?_⟩
        · intro e2 he2
          rcases List.mem_cons.mp he2 with h1 | h2
          · rw [h1]; exact he
          · exact hl1 e2 h2
        · unfold setD
          rw [if_neg he, hset]
          rfl

theorem lookupD_setD_self (d : List ((PyStr × PyStr) × Rec)) (k : PyStr × PyStr)
    (v p : Rec) (h : lookupD d k = some p) :
    lookupD (setD d k v) k = some v := by
  induction d with
  | nil => simp [lookupD] at h
  | cons e d ih =>
      unfold lookupD at h
      unfold setD
      by_cases he : e.1 = k
      · rw [if_pos he]
        unfold lookupD
        rw [if_pos rfl]
      · rw [if_neg he] at h
        rw [if_neg he]
        unfold lookupD
        rw [if_neg he]
        exact ih h

theorem lookupD_setD_ne (d : List ((PyStr × PyStr) × Rec)) (k k2 : PyStr × PyStr)
    (v : Rec) (h : k2 ≠ k) :
    lookupD (setD d k v) k2 = lookupD d k2 := by
  induction d with
  | nil =>
      unfold setD lookupD
      rw [if_neg (fun hh => h hh.symm)]
      rfl
  | cons e d ih =>
      unfold setD
      by_cases he : e.1 = k
      · rw [if_pos he]
        unfold lookupD
        rw [if_neg (fun hh => h hh.symm), if_neg (by rw [he]; exact fun hh => h hh.symm)]
      · rw [if_neg he]
        unfold lookupD
        by_cases he2 : e.1 = k2
        · rw [if_pos he2, if_pos he2]
        · rw [if_neg he2, if_neg he2]
          exact ih

theorem lookupD_cons (e : (PyStr × PyStr) × Rec) (d : List ((PyStr × PyStr) × Rec))
    (k : PyStr × PyStr) :
    lookupD (e :: d) k = if e.1 = k then some e.2 else lookupD d k := rfl

theorem lookupD_append_of_none (d d2 : List ((PyStr × PyStr) × Rec))
    (k : PyStr × PyStr) (h : lookupD d k = none) :
    lookupD (d ++ d2) k = lookupD d2 k := by
  induction d with
  | nil => rfl
  | cons e d ih =>
      rw [lookupD_cons] at h
      rw [List.cons_append, lookupD_cons]
      by_cases he : e.1 = k
      · rw [if_pos he] at h
        exact absurd h (by simp)
      · rw [if_neg he] at h ⊢
        exact ih h

theorem lookupD_append_of_some (d d2 : List ((PyStr × PyStr) × Rec))
    (k : PyStr × PyStr) (p : Rec) (h : lookupD d k = some p) :
    lookupD (d ++ d2) k = some p := by
  induction d with
  | nil => simp [lookupD] at h
  | cons e d ih =>
      rw [lookupD_cons] at h
      rw [List.cons_append, lookupD_cons]
      by_cases he : e.1 = k
      · rw [if_pos he] at h ⊢
        exact h
      · rw [if_neg he] at h ⊢
        exact ih h

theorem setD_keys (d : List ((PyStr × PyStr) × Rec)) (k : PyStr × PyStr)
    (v p : Rec) (h : lookupD d k = some p) :
    (setD d k v).map (·.1) = d.map (·.1) := by
  obtain ⟨l1, l2, hd, _, hset⟩ := lookupD_some_decomp d k p h v
  rw [hset, hd]
  simp

/-! Behavior of one resolver step. -/

theorem processRow_eq (st : RState) (row : PyStr × PyStr) :
    processRow st row =
      if pyStrip row.1 = [] ∨ pyStrip row.2 = [] then st
      else
        match lookupD st.dict
            (normalize_name (pyStrip row.2), normalize_name (pyStrip row.1)) with
        | some prev =>
            if accentScore (pyStrip row.2, pyStrip row.1) > accentScore prev then
              ⟨setD st.dict (normalize_name (pyStrip row.2), normalize_name (pyStrip row.1))
                  (pyStrip row.2, pyStrip row.1),
                st.report ++ [((pyStrip row.2, pyStrip row.1), prev)]⟩
            else ⟨st.dict, st.report ++ [(prev, (pyStrip row.2, pyStrip row.1))]⟩
        | none =>
            ⟨st.dict ++ [((normalize_name (pyStrip row.2), normalize_name (pyStrip row.1)),
                (pyStrip row.2, pyStrip row.1))],
              st.report⟩ := rfl

theorem processRow_invalid (st : RState) (row : PyStr × PyStr)
    (h : pyStrip row.1 = [] ∨ pyStrip row.2 = []) : processRow st row = st := by
  rw [processRow_eq, if_pos h]

theorem processRow_new (st : RState) (row : PyStr × PyStr)
    (hval : ¬(pyStrip row.1 = [] ∨ pyStrip row.2 = []))
    (hl : lookupD st.dict
      (normalize_name (pyStrip row.2), normalize_name (pyStrip row.1)) = none) :
    processRow st row =
      ⟨st.dict ++ [((normalize_name (pyStrip row.2), normalize_name (pyStrip row.1)),
          (pyStrip row.2, pyStrip row.1))],
        st.report⟩ := by
  rw [processRow_eq, if_neg hval]
  simp only [hl]

theorem processRow_dup_replace (st : RState) (row : PyStr × PyStr) (p : Rec)
    (hval : ¬(pyStrip row.1 = [] ∨ pyStrip row.2 = []))
    (hl : lookupD st.dict
      (normalize_name (pyStrip row.2), normalize_name (pyStrip row.1)) = some p)
    (hgt : accentScore (pyStrip row.2, pyStrip row.1) > accentScore p) :
    processRow st row =
      ⟨setD st.dict (normalize_name (pyStrip row.2), normalize_name (pyStrip row.1))
          (pyStrip row.2, pyStrip row.1),
        st.report ++ [((pyStrip row.2, pyStrip row.1), p)]⟩ := by
  rw [processRow_eq, if_neg hval]
  simp only [hl]
  rw [if_pos hgt]

theorem processRow_dup_keep (st : RState) (row : PyStr × PyStr) (p : Rec)
    (hval : ¬(pyStrip row.1 = [] ∨ pyStrip row.2 = []))
    (hl : lookupD st.dict
      (normalize_name (pyStrip row.2), normalize_name (pyStrip row.1)) = some p)
    (hgt : ¬accentScore (pyStrip row.2, pyStrip row.1) > accentScore p) :
    processRow st row = ⟨st.dict, st.report ++ [(p, (pyStrip row.2, pyStrip row.1))]⟩ := by
  rw [processRow_eq, if_neg hval]
  simp only [hl]
  rw [if_neg hgt]

theorem cleanRows_cons (row : PyStr × PyStr) (rows : List (PyStr × PyStr)) :
    cleanRows (row :: rows) =
      if pyStrip row.1 = [] ∨ pyStrip row.2 = [] then cleanRows rows
      else (pyStrip row.2, pyStrip row.1) :: cleanRows rows := by
  unfold cleanRows
  rw [List.filterMap_cons]
  by_cases h : pyStrip row.1 = [] ∨ pyStrip row.2 = []
  · simp only [h, if_true, if_pos h]
  · simp only [h, if_false, if_neg h]

/-! The resolver invariant: keys are the folded keys of their values and are
pairwise distinct. -/

theorem processRow_good (st : RState) (row : PyStr × PyStr) (h : GoodDict st.dict) :
    GoodDict (processRow st row).dict := by
  by_cases hval : pyStrip row.1 = [] ∨ pyStrip row.2 = []
  · rw [processRow_invalid st row hval]
    exact h
  · cases hl : lookupD st.dict
        (normalize_name (pyStrip row.2), normalize_name (pyStrip row.1)) with
    | none =>
        rw [processRow_new st row hval hl]
        constructor
        · intro e he
          rcases List.mem_append.mp he with h1 | h2
          · exact h.1 e h1
          · rw [List.mem_singleton] at h2
            rw [h2]
            rfl
        · rw [List.map_append, List.nodup_append]
          refine ⟨h.2, by simp, ?_⟩
          intro a ha hb
          simp only [List.map_cons, List.map_nil, List.mem_singleton] at hb
          subst hb
          rw [lookupD_none_iff] at hl
          rw [List.mem_map] at ha
          obtain ⟨e, he, hek⟩ := ha
          exact hl e he hek
    | some p =>
        by_cases hgt : accentScore (pyStrip row.2, pyStrip row.1) > accentScore p
        · rw [processRow_dup_replace st row p hval hl hgt]
          obtain ⟨l1, l2, hd, hl1, hset⟩ :=
            lookupD_some_decomp st.dict _ p hl (pyStrip row.2, pyStrip row.1)
          constructor
          · intro e he
            rw [hset] at he
            rcases List.mem_append.mp he with h1 | h2
            · exact h.1 e (by rw [hd]; exact List.mem_append.mpr (Or.inl h1))
            · rcases List.mem_cons.mp h2 with h3 | h4
              · rw [h3]
                rfl
              · exact h.1 e
                  (by rw [hd]; exact List.mem_append.mpr (Or.inr (List.mem_cons_of_mem _ h4)))
          · rw [setD_keys st.dict _ _ p hl]
            exact h.2
        · rw [processRow_dup_keep st row p hval hl hgt]
          exact h

theorem goodDict_foldl (rows : List (PyStr × PyStr)) :
    ∀ st : RState, GoodDict st.dict → GoodDict ((rows.foldl processRow st).dict) := by
  induction rows with
  | nil =>
      intro st h
      exact h
  | cons row rows ih =>
      intro st h
      rw [List.foldl_cons]
      exact ih _ (processRow_good st row h)

/-! The sort phase: a deterministic permutation. -/

theorem perm_orderedInsertB (a : Rec) (l : List Rec) :
    List.Perm (orderedInsertB a l) (a :: l) := by
  induction l with
  | nil => exact List.Perm.refl _
  | cons b l ih =>
      unfold orderedInsertB
      by_cases h : recLe a b = true
      · rw [if_pos h]
      · rw [if_neg h]
        exact (ih.cons b).trans (List.Perm.swap a b l)

theorem perm_insertionSortB (l : List Rec) : List.Perm (insertionSortB l) l := by
  induction l with
  | nil => exact List.Perm.refl _
  | cons a l ih =>
      unfold insertionSortB
      exact (perm_orderedInsertB a (insertionSortB l)).trans (ih.cons a)

theorem mem_read_unique_names (rows : List (PyStr × PyStr)) (r : Rec) :
    r ∈ read_unique_names rows ↔
      ∃ v ∈ (resolveRows rows).dict.map (·.2),
        r = (capitalize_if_single_word v.1, v.2) := by
  unfold read_unique_names
  rw [(perm_insertionSortB _).mem_iff, List.mem_map]
  constructor
  · rintro ⟨v, hv, rfl⟩
    exact ⟨v, hv, rfl⟩
  · rintro ⟨v, hv, rfl⟩
    exact ⟨v, hv, rfl⟩

/-! Survivors with equal folded keys are equal. -/

theorem survivors_fold_injective (rows : List (PyStr × PyStr)) (r1 r2 : Rec)
    (hf : normalize_name r1.1 = normalize_name r2.1)
    (hg : normalize_name r1.2 = normalize_name r2.2)
    (h1 : r1 ∈ read_unique_names rows) (h2 : r2 ∈ read_unique_names rows) :
    r1 = r2 := by
  have hgood : GoodDict (resolveRows rows).dict :=
    goodDict_foldl rows ⟨[], []⟩ ⟨by simp, by simp⟩
  rw [mem_read_unique_names] at h1 h2
  obtain ⟨v1, hv1, he1⟩ := h1
  obtain ⟨v2, hv2, he2⟩ := h2
  rw [List.mem_map] at hv1 hv2
  obtain ⟨e1, hm1, hp1⟩ := hv1
  obtain ⟨e2, hm2, hp2⟩ := hv2
  have hf1 : normalize_name r1.1 = normalize_name v1.1 := by
    rw [he1]
    exact normalize_capitalize v1.1
  have hf2 : normalize_name r2.1 = normalize_name v2.1 := by
    rw [he2]
    exact normalize_capitalize v2.1
  have hg1 : r1.2 = v1.2 := by rw [he1]
  have hg2 : r2.2 = v2.2 := by rw [he2]
  have hk1 : e1.1 = recKey v1 := by
    rw [← hp1]
    exact hgood.1 e1 hm1
  have hk2 : e2.1 = recKey v2 := by
    rw [← hp2]
    exact hgood.1 e2 hm2
  have hkeq : e1.1 = e2.1 := by
    rw [hk1, hk2]
    unfold recKey
    rw [← hf1, ← hf2, hf, ← hg1, ← hg2, hg]
  have hee : e1 = e2 :=
    List.inj_on_of_nodup_map hgood.2 hm1 hm2 hkeq
  have hv : v1 = v2 := by rw [← hp1, ← hp2, hee]
  rw [he1, he2, hv]

/-! Projection of the resolver onto a single folded key. -/

theorem specPairwiseRep_none (r : Rec) : specPairwiseRep none r = some r := rfl

theorem specPairwiseRep_some (p r : Rec) :
    specPairwiseRep (some p) r =
      some (if accentScore r > accentScore p then r else p) := rfl

theorem lookupD_foldl_processRow (rows : List (PyStr × PyStr)) :
    ∀ (st : RState) (K : PyStr × PyStr),
      lookupD ((rows.foldl processRow st).dict) K =
        ((cleanRows rows).filter (fun r => decide (recKey r = K))).foldl
          specPairwiseRep (lookupD st.dict K) := by
  induction rows with
  | nil =>
      intro st K
      simp [cleanRows]
  | cons row rows ih =>
      intro st K
      rw [List.foldl_cons, cleanRows_cons, ih (processRow st row) K]
      by_cases hval : pyStrip row.1 = [] ∨ pyStrip row.2 = []
      · rw [if_pos hval, processRow_invalid st row hval]
      · rw [if_neg hval, List.filter_cons]
        have hkey : recKey (pyStrip row.2, pyStrip row.1) =
            (normalize_name (pyStrip row.2), normalize_name (pyStrip row.1)) := rfl
        by_cases hK : recKey (pyStrip row.2, pyStrip row.1) = K
        · rw [if_pos (by rw [decide_eq_true_eq]; exact hK), List.foldl_cons]
          have hstep : lookupD (processRow st row).dict K =
              specPairwiseRep (lookupD st.dict K) (pyStrip row.2, pyStrip row.1) := by
            rw [← hK, hkey]
            cases hl : lookupD st.dict
                (normalize_name (pyStrip row.2), normalize_name (pyStrip row.1)) with
            | none =>
                rw [processRow_new st row hval hl]
                rw [lookupD_append_of_none _ _ _ hl, lookupD_cons, if_pos rfl]
                rfl
            | some p =>
                by_cases hgt : accentScore (pyStrip row.2, pyStrip row.1) > accentScore p
                · rw [processRow_dup_replace st row p hval hl hgt]
                  rw [lookupD_setD_self _ _ _ p hl, specPairwiseRep_some, if_pos hgt]
                · rw [processRow_dup_keep st row p hval hl hgt]
                  rw [hl, specPairwiseRep_some, if_neg hgt]
          rw [hstep]
        · rw [if_neg (by rw [decide_eq_true_eq]; exact hK)]
          have hK2 : (normalize_name (pyStrip row.2), normalize_name (pyStrip row.1)) ≠ K := by
            rw [← hkey]
            exact hK
          have hstep : lookupD (processRow st row).dict K = lookupD st.dict K := by
            cases hl : lookupD st.dict
                (normalize_name (pyStrip row.2), normalize_name (pyStrip row.1)) with
            | none =>
                rw [processRow_new st row hval hl]
                cases hsk : lookupD st.dict K with
                | some q => rw [lookupD_append_of_some _ _ _ q hsk]
                | none =>
                    rw [lookupD_append_of_none _ _ _ hsk, lookupD_cons, if_neg hK2]
                    rfl
            | some p =>
                by_cases hgt : accentScore (pyStrip row.2, pyStrip row.1) > accentScore p
                · rw [processRow_dup_replace st row p hval hl hgt]
                  exact lookupD_setD_ne st.dict _ K _ (fun hh => hK2 hh.symm)
                · rw [processRow_dup_keep st row p hval hl hgt]
          rw [hstep]

/-! Conservation of records: the cleaned input is exactly the survivors plus
the removed entries of the report, counted as a multiset. -/

theorem values_report_multiset (rows : List (PyStr × PyStr)) :
    ∀ st : RState,
      (((rows.foldl processRow st).dict.map (·.2) : List Rec) : Multiset Rec) +
          (((rows.foldl processRow st).report.map (·.2) : List Rec) : Multiset Rec) =
        ((st.dict.map (·.2) : List Rec) : Multiset Rec) +
          ((st.report.map (·.2) : List Rec) : Multiset Rec) +
          ((cleanRows rows : List Rec) : Multiset Rec) := by
  induction rows with
  | nil =>
      intro st
      simp [cleanRows]
  | cons row rows ih =>
      intro st
      rw [List.foldl_cons, cleanRows_cons, ih (processRow st row)]
      by_cases hval : pyStrip row.1 = [] ∨ pyStrip row.2 = []
      · rw [if_pos hval, processRow_invalid st row hval]
      · rw [if_neg hval]
        cases hl : lookupD st.dict
            (normalize_name (pyStrip row.2), normalize_name (pyStrip row.1)) with
        | none =>
            rw [processRow_new st row hval hl]
            simp only [List.map_append, List.map_cons, List.map_nil,
              ← Multiset.coe_add, ← Multiset.cons_coe, ← Multiset.singleton_add]
            abel
        | some p =>
            by_cases hgt : accentScore (pyStrip row.2, pyStrip row.1) > accentScore p
            · rw [processRow_dup_replace st row p hval hl hgt]
              obtain ⟨l1, l2, hd, h1, hset⟩ :=
                lookupD_some_decomp st.dict _ p hl (pyStrip row.2, pyStrip row.1)
              rw [hset, hd]
              simp only [List.map_append, List.map_cons, List.map_nil,
                ← Multiset.coe_add, ← Multiset.cons_coe, ← Multiset.singleton_add]
              abel
            · rw [processRow_dup_keep st row p hval hl hgt]
              simp only [List.map_append, List.map_cons, List.map_nil,
                ← Multiset.coe_add, ← Multiset.cons_coe, ← Multiset.singleton_add]
              abel

/-! Last-word and split facts needed for the sort-key analysis. -/

theorem lookupD_nil (k : PyStr × PyStr) : lookupD [] k = none := rfl

theorem setD_cons (e : (PyStr × PyStr) × Rec) (d : List ((PyStr × PyStr) × Rec))
    (k : PyStr × PyStr) (v : Rec) :
    setD (e :: d) k v = if e.1 = k then (k, v) :: d else e :: setD d k v := rfl

theorem splitGo_no_space (s : PyStr) :
    ∀ acc, (∀ c ∈ s, isSpace c = false) →
      splitGo s acc = if acc.reverse ++ s = [] then [] else [acc.reverse ++ s] := by
  induction s with
  | nil =>
      intro acc h
      unfold splitGo
      by_cases ha : acc = []
      · rw [if_pos ha, ha]
        simp
      · rw [if_neg ha, if_neg (by simp [ha])]
        simp
  | cons c t ih =>
      intro acc h
      unfold splitGo
      rw [h c (List.mem_cons_self c t), if_neg (by simp)]
      rw [ih (c :: acc) (fun d hd => h d (List.mem_cons_of_mem c hd))]
      rw [List.reverse_cons, List.append_assoc]
      rw [if_neg (by simp), if_neg (by simp)]
      rfl

theorem pySplit_no_space (s : PyStr) (h : ∀ c ∈ s, isSpace c = false) (hne : s ≠ []) :
    pySplit s = [s] := by
  unfold pySplit
  rw [splitGo_no_space s [] h, List.reverse_nil, List.nil_append, if_neg hne]

theorem fold_spec_of_clean (x : PyStr)
    (h : pyStrip (strip_accents x) = strip_accents x) :
    fold_spec x = pyLower (strip_accents x) := by
  show pyStrip (pyLower (strip_accents x)) = pyLower (strip_accents x)
  rw [pyStrip_pyLower, h]

theorem claimLastWord_eq_code (family : PyStr)
    (hfam : pyStrip (strip_accents family) = strip_accents family) :
    claimLastWord family = (pySplit family).getLastD family := by
  unfold claimLastWord
  by_cases hys : family.any isSpace = true
  · rw [if_pos hys]
    have hne : pySplit family ≠ [] := by
      intro h0
      have hall := splitGo_nil_all_space family h0
      obtain ⟨c, hc, _⟩ := List.any_eq_true.mp hys
      have hfne : family ≠ [] := by
        intro h2
        rw [h2] at hc
        exact absurd hc (by simp)
      have hsa : strip_accents family = family := strip_accents_of_space family hall
      rw [hsa] at hfam
      have hstrip : pyStrip family = [] := by
        unfold pyStrip
        rw [dropWhile_space_nil_of_all family hall]
        simp [List.rdropWhile]
      rw [hstrip] at hfam
      exact hfne hfam.symm
    cases hsp : pySplit family with
    | nil => exact absurd hsp hne
    | cons w ws => rw [List.getLastD_cons, List.getLastD_cons]
  · rw [if_neg hys]
    have hns : ∀ c ∈ family, isSpace c = false := by
      intro c hc
      cases h2 : isSpace c
      · rfl
      · exact absurd (List.any_eq_true.mpr ⟨c, hc, h2⟩) hys
    by_cases hfe : family = []
    · rw [hfe]
      rfl
    · rw [pySplit_no_space family hns hfe]
      rfl

/-! Claim theorems. -/

/-- C1: the escaping round-trip fails on the code. Escaping the one-character
name consisting of a backslash (code point 92) first rewrites it to the text
of `\textbackslash` followed by an empty group, and the later brace
replacements then corrupt that group: the written output is the text
`\textbackslash` followed by an escaped open brace and an escaped close
brace, which the LaTeX processor renders as the three characters backslash,
open brace, close brace instead of the original single backslash. -/
theorem latex_escape_backslash_not_roundtrip :
    latex_escape [92] =
      [92, 116, 101, 120, 116, 98, 97, 99, 107, 115, 108, 97, 115, 104, 92, 123, 92, 125] ∧
    latexRender (latex_escape [92]) = [92, 123, 125] ∧
    latexRender (latex_escape [92]) ≠ [92] :=
  ⟨by decide, by decide, by decide⟩

/-- C2: for any two records of the final survivor sequence whose sort keys
are equal, the family names fold equal and the given names fold equal — in
fact the two records are one and the same record, so the relative order of
key-equal records is trivially deterministic (the whole pipeline is a pure
function of the input rows). -/
theorem survivor_sort_keys_injective (rows : List (PyStr × PyStr)) (r1 r2 : Rec)
    (h1 : r1 ∈ read_unique_names rows) (h2 : r2 ∈ read_unique_names rows)
    (hkey : get_sort_key r1.1 r1.2 = get_sort_key r2.1 r2.2) :
    (normalize_name r1.1 = normalize_name r2.1 ∧
      normalize_name r1.2 = normalize_name r2.2) ∧ r1 = r2 := by
  have hc1 : pyLower (strip_accents r1.1) = pyLower (strip_accents r2.1) :=
    congrArg (fun k => k.2.1) hkey
  have hc2 : pyLower (strip_accents r1.2) = pyLower (strip_accents r2.2) :=
    congrArg (fun k => k.2.2) hkey
  have hf : normalize_name r1.1 = normalize_name r2.1 := by
    rw [normalize_name_eq_strip_lower, normalize_name_eq_strip_lower, hc1]
  have hg : normalize_name r1.2 = normalize_name r2.2 := by
    rw [normalize_name_eq_strip_lower, normalize_name_eq_strip_lower, hc2]
  exact ⟨⟨hf, hg⟩, survivors_fold_injective rows r1 r2 hf hg h1 h2⟩

/-- C2 witness: the record `Muller, Anna` survives alone from a one-row
input, and the theorem instantiated at that record discharges all
hypotheses. -/
theorem survivor_sort_keys_injective_witness :
    (([77, 117, 108, 108, 101, 114], [65, 110, 110, 97]) : Rec) ∈
        read_unique_names [([65, 110, 110, 97], [77, 117, 108, 108, 101, 114])] ∧
      ((normalize_name [77, 117, 108, 108, 101, 114] =
          normalize_name [77, 117, 108, 108, 101, 114] ∧
        normalize_name [65, 110, 110, 97] = normalize_name [65, 110, 110, 97]) ∧
       (([77, 117, 108, 108, 101, 114], [65, 110, 110, 97]) : Rec) =
         ([77, 117, 108, 108, 101, 114], [65, 110, 110, 97])) :=
  ⟨by decide,
    survivor_sort_keys_injective [([65, 110, 110, 97], [77, 117, 108, 108, 101, 114])]
      ([77, 117, 108, 108, 101, 114], [65, 110, 110, 97])
      ([77, 117, 108, 108, 101, 114], [65, 110, 110, 97])
      (by decide) (by decide) rfl⟩

/-- C3: accent preference. Given exactly two valid records with the same
folded key where the first has the strictly larger accent score, the
resolver's surviving representative is the first record under both arrival
orders. The whitespace-trimmed and non-empty hypotheses state that the two
records are valid pipeline records. -/
theorem accent_preference (f1 g1 f2 g2 : PyStr)
    (hs1g : pyStrip g1 = g1) (hs1f : pyStrip f1 = f1)
    (hs2g : pyStrip g2 = g2) (hs2f : pyStrip f2 = f2)
    (hne1g : g1 ≠ []) (hne1f : f1 ≠ []) (hne2g : g2 ≠ []) (hne2f : f2 ≠ [])
    (hkf : normalize_name f2 = normalize_name f1)
    (hkg : normalize_name g2 = normalize_name g1)
    (hsc : accentScore (f2, g2) < accentScore (f1, g1)) :
    (resolveRows [(g1, f1), (g2, f2)]).dict.map (·.2) = [(f1, g1)] ∧
    (resolveRows [(g2, f2), (g1, f1)]).dict.map (·.2) = [(f1, g1)] := by
  have hv1 : ¬(pyStrip (g1, f1).1 = [] ∨ pyStrip (g1, f1).2 = []) := by
    show ¬(pyStrip g1 = [] ∨ pyStrip f1 = [])
    rw [hs1g, hs1f]
    simp [hne1g, hne1f]
  have hv2 : ¬(pyStrip (g2, f2).1 = [] ∨ pyStrip (g2, f2).2 = []) := by
    show ¬(pyStrip g2 = [] ∨ pyStrip f2 = [])
    rw [hs2g, hs2f]
    simp [hne2g, hne2f]
  have hst1 : processRow ⟨[], []⟩ (g1, f1) =
      ⟨[((normalize_name f1, normalize_name g1), (f1, g1))], []⟩ := by
    rw [processRow_new ⟨[], []⟩ (g1, f1) hv1 (lookupD_nil _)]
    show (⟨[] ++ [((normalize_name (pyStrip f1), normalize_name (pyStrip g1)),
        (pyStrip f1, pyStrip g1))], []⟩ : RState) = _
    rw [hs1f, hs1g, List.nil_append]
  have hst2 : processRow ⟨[], []⟩ (g2, f2) =
      ⟨[((normalize_name f2, normalize_name g2), (f2, g2))], []⟩ := by
    rw [processRow_new ⟨[], []⟩ (g2, f2) hv2 (lookupD_nil _)]
    show (⟨[] ++ [((normalize_name (pyStrip f2), normalize_name (pyStrip g2)),
        (pyStrip f2, pyStrip g2))], []⟩ : RState) = _
    rw [hs2f, hs2g, List.nil_append]
  constructor
  · show ((List.foldl processRow ⟨[], []⟩ [(g1, f1), (g2, f2)]).dict.map (·.2)) = [(f1, g1)]
    rw [List.foldl_cons, List.foldl_cons, List.foldl_nil, hst1]
    have hl2 : lookupD [((normalize_name f1, normalize_name g1), (f1, g1))]
        (normalize_name (pyStrip (g2, f2).2), normalize_name (pyStrip (g2, f2).1)) =
        some (f1, g1) := by
      show lookupD _ (normalize_name (pyStrip f2), normalize_name (pyStrip g2)) = _
      rw [hs2f, hs2g, hkf, hkg, lookupD_cons, if_pos rfl]
    have hgt2 : ¬accentScore (pyStrip (g2, f2).2, pyStrip (g2, f2).1) >
        accentScore (f1, g1) := by
      show ¬accentScore (pyStrip f2, pyStrip g2) > accentScore (f1, g1)
      rw [hs2f, hs2g]
      omega
    rw [processRow_dup_keep _ _ _ hv2 hl2 hgt2]
    rfl
  · show ((List.foldl processRow ⟨[], []⟩ [(g2, f2), (g1, f1)]).dict.map (·.2)) = [(f1, g1)]
    rw [List.foldl_cons, List.foldl_cons, List.foldl_nil, hst2]
    have hl1 : lookupD [((normalize_name f2, normalize_name g2), (f2, g2))]
        (normalize_name (pyStrip (g1, f1).2), normalize_name (pyStrip (g1, f1).1)) =
        some (f2, g2) := by
      show lookupD _ (normalize_name (pyStrip f1), normalize_name (pyStrip g1)) = _
      rw [hs1f, hs1g, ← hkf, ← hkg, lookupD_cons, if_pos rfl]
    have hgt1 : accentScore (pyStrip (g1, f1).2, pyStrip (g1, f1).1) >
        accentScore (f2, g2) := by
      show accentScore (pyStrip f1, pyStrip g1) > accentScore (f2, g2)
      rw [hs1f, hs1g]
      exact hsc
    rw [processRow_dup_replace _ _ _ hv1 hl1 hgt1]
    show (setD [((normalize_name f2, normalize_name g2), (f2, g2))]
        (normalize_name (pyStrip f1), normalize_name (pyStrip g1))
        (pyStrip f1, pyStrip g1)).map (·.2) = [(f1, g1)]
    rw [hs1f, hs1g, ← hkf, ← hkg, setD_cons, if_pos rfl]
    rfl

/-- C3 witness: `Müller, Anna` against `Muller, Anna` — the accented variant
survives under both arrival orders. -/
theorem accent_preference_witness :
    (normalize_name [77, 117, 108, 108, 101, 114] =
        normalize_name [77, 252, 108, 108, 101, 114] ∧
      accentScore ([77, 117, 108, 108, 101, 114], [65, 110, 110, 97]) <
        accentScore ([77, 252, 108, 108, 101, 114], [65, 110, 110, 97])) ∧
    ((resolveRows [([65, 110, 110, 97], [77, 252, 108, 108, 101, 114]),
        ([65, 110, 110, 97], [77, 117, 108, 108, 101, 114])]).dict.map (·.2) =
      [([77, 252, 108, 108, 101, 114], [65, 110, 110, 97])] ∧
     (resolveRows [([65, 110, 110, 97], [77, 117, 108, 108, 101, 114]),
        ([65, 110, 110, 97], [77, 252, 108, 108, 101, 114])]).dict.map (·.2) =
      [([77, 252, 108, 108, 101, 114], [65, 110, 110, 97])]) :=
  ⟨⟨by decide, by decide⟩,
    accent_preference [77, 252, 108, 108, 101, 114] [65, 110, 110, 97]
      [77, 117, 108, 108, 101, 114] [65, 110, 110, 97]
      (by decide) (by decide) (by decide) (by decide)
      (by decide) (by decide) (by decide) (by decide)
      (by decide) (by decide) (by decide)⟩

/-- C4: the duplicate resolver is pairwise-incremental. For every input and
every folded key, the representative the resolver holds for that key is
obtained by folding the spec's pairwise rule over exactly the valid records
of that key, in arrival order: the first arrival becomes representative, and
a later arrival is compared only to the current representative, replacing it
exactly when its accent score is strictly larger (ties keep the incumbent);
discarded records are never revisited. -/
theorem pairwise_incremental_resolution (rows : List (PyStr × PyStr))
    (K : PyStr × PyStr) :
    lookupD (resolveRows rows).dict K =
      ((cleanRows rows).filter (fun r => decide (recKey r = K))).foldl
        specPairwiseRep none :=
  lookupD_foldl_processRow rows ⟨[], []⟩ K

/-- C5: duplicate-detection invariant. Any two members of the final survivor
sequence whose family names fold equal and whose given names fold equal are
the same record, so at most one record of any fold-equal pair appears in the
output. -/
theorem duplicate_detection_invariant (rows : List (PyStr × PyStr)) (r1 r2 : Rec)
    (hf : normalize_name r1.1 = normalize_name r2.1)
    (hg : normalize_name r1.2 = normalize_name r2.2)
    (h1 : r1 ∈ read_unique_names rows) (h2 : r2 ∈ read_unique_names rows) :
    r1 = r2 :=
  survivors_fold_injective rows r1 r2 hf hg h1 h2

/-- C5 witness: from the two fold-equal rows `Muller, Anna` and
`Müller, Anna` the accented record survives alone, and the theorem applied
at that survivor discharges all hypotheses. -/
theorem duplicate_detection_invariant_witness :
    (([77, 252, 108, 108, 101, 114], [65, 110, 110, 97]) : Rec) ∈
        read_unique_names [([65, 110, 110, 97], [77, 117, 108, 108, 101, 114]),
          ([65, 110, 110, 97], [77, 252, 108, 108, 101, 114])] ∧
      (([77, 252, 108, 108, 101, 114], [65, 110, 110, 97]) : Rec) =
        ([77, 252, 108, 108, 101, 114], [65, 110, 110, 97]) :=
  ⟨by decide,
    duplicate_detection_invariant
      [([65, 110, 110, 97], [77, 117, 108, 108, 101, 114]),
        ([65, 110, 110, 97], [77, 252, 108, 108, 101, 114])]
      ([77, 252, 108, 108, 101, 114], [65, 110, 110, 97])
      ([77, 252, 108, 108, 101, 114], [65, 110, 110, 97])
      rfl rfl (by decide) (by decide)⟩

/-- C6 counterexample: the sort key is not built from the spec's §4.1 fold.
For the family name consisting of the snowman symbol (code point 9731, which
has no ASCII projection), a space, and the letter `x`, with given name `a`,
the code's sort key keeps the leading space that the decomposition exposes in
the full-family component, while the claimed key trims it. -/
theorem sort_key_not_spec_fold :
    get_sort_key [9731, 32, 120] [97] ≠ claimKey [9731, 32, 120] [97] := by
  decide

/-- C6 amended: the sort key is the triple
`(fold(lastWord), fold(family), fold(given))` with the §4.1 fold, provided
the decomposed-ASCII projections of the family name, the given name and the
last word carry no leading or trailing whitespace — the code applies the
§4.1 fold without its final trim step, and the two agree exactly under that
proviso. -/
theorem sort_key_is_untrimmed_fold (family given : PyStr)
    (hfam : pyStrip (strip_accents family) = strip_accents family)
    (hgiv : pyStrip (strip_accents given) = strip_accents given)
    (hlw : pyStrip (strip_accents ((pySplit family).getLastD family)) =
      strip_accents ((pySplit family).getLastD family)) :
    get_sort_key family given = claimKey family given := by
  simp only [get_sort_key, claimKey]
  rw [claimLastWord_eq_code family hfam]
  rw [fold_spec_of_clean _ hlw, fold_spec_of_clean _ hfam, fold_spec_of_clean _ hgiv]

/-- C6 amended witness: the family `de Wolf` with given name `Rijk`. -/
theorem sort_key_is_untrimmed_fold_witness :
    pyStrip (strip_accents [100, 101, 32, 87, 111, 108, 102]) =
        strip_accents [100, 101, 32, 87, 111, 108, 102] ∧
      get_sort_key [100, 101, 32, 87, 111, 108, 102] [82, 105, 106, 107] =
        claimKey [100, 101, 32, 87, 111, 108, 102] [82, 105, 106, 107] :=
  ⟨by decide,
    sort_key_is_untrimmed_fold [100, 101, 32, 87, 111, 108, 102] [82, 105, 106, 107]
      (by decide) (by decide) (by decide)⟩

/-- C7: single-word capitalization. When splitting the family name on
whitespace yields exactly one word, the result is that word with its first
character upper-cased and all remaining characters lower-cased; when it
yields more than one word, the family name is returned completely
unchanged. -/
theorem capitalize_single_word_claim (family : PyStr) :
    (∀ c t, pySplit family = [c :: t] →
        capitalize_if_single_word family = upperChar c :: t.map lowerChar) ∧
    (∀ w1 w2 ws, pySplit family = w1 :: w2 :: ws →
        capitalize_if_single_word family = family) := by
  constructor
  · intro c t hw
    simp [capitalize_if_single_word, hw, pyCapitalize]
  · intro w1 w2 ws hw
    simp [capitalize_if_single_word, hw]

/-- C7 witness: `smith` becomes `Smith`, and `van den berg` stays
unchanged. -/
theorem capitalize_single_word_claim_witness :
    capitalize_if_single_word [115, 109, 105, 116, 104] =
        upperChar 115 :: [109, 105, 116, 104].map lowerChar ∧
      capitalize_if_single_word [118, 97, 110, 32, 100, 101, 110, 32, 98, 101, 114, 103] =
        [118, 97, 110, 32, 100, 101, 110, 32, 98, 101, 114, 103] :=
  ⟨(capitalize_single_word_claim [115, 109, 105, 116, 104]).1
      115 [109, 105, 116, 104] (by decide),
    (capitalize_single_word_claim [118, 97, 110, 32, 100, 101, 110, 32, 98, 101, 114, 103]).2
      [118, 97, 110] [100, 101, 110] [[98, 101, 114, 103]] (by decide)⟩

/-- C8: the folding function is idempotent and total onto ASCII — it is a
total Lean function, folding twice equals folding once, and every code point
of the (possibly empty) output is ASCII. -/
theorem fold_idempotent_and_total (s : PyStr) :
    normalize_name (normalize_name s) = normalize_name s ∧
      ∀ c ∈ normalize_name s, c < 128 :=
  ⟨normalize_name_idem s, normalize_name_ascii s⟩

/-- C8 witness: the theorem evaluated at the name `Müller`. -/
theorem fold_idempotent_and_total_witness :
    normalize_name (normalize_name [77, 252, 108, 108, 101, 114]) =
        normalize_name [77, 252, 108, 108, 101, 114] ∧
      ∀ c ∈ normalize_name [77, 252, 108, 108, 101, 114], c < 128 :=
  fold_idempotent_and_total [77, 252, 108, 108, 101, 114]

/-- C9: the resolution report accounts for every discarded record. The valid
cleaned input records are, as a multiset, exactly the survivors plus the
removed components of the report entries: every valid record occurrence that
does not survive appears as the removed name of exactly one report entry
(each entry carrying both the kept and the removed record), and no duplicate
is discarded silently. -/
theorem resolution_report_conservation (rows : List (PyStr × PyStr)) :
    List.Perm
      ((resolveRows rows).dict.map (·.2) ++ (resolveRows rows).report.map (·.2))
      (cleanRows rows) := by
  rw [← Multiset.coe_eq_coe, ← Multiset.coe_add]
  have h := values_report_multiset rows ⟨[], []⟩
  simpa using h

/-- C10: implicit edge case. Two valid records whose family and given names
all fold to the empty string share the folded key of two empty strings, so
the pipeline treats them as duplicates of each other and exactly one of them
survives, even when the original names are completely unrelated. -/
theorem empty_fold_collision (g1 f1 g2 f2 : PyStr)
    (hs1g : pyStrip g1 = g1) (hs1f : pyStrip f1 = f1)
    (hs2g : pyStrip g2 = g2) (hs2f : pyStrip f2 = f2)
    (hne1g : g1 ≠ []) (hne1f : f1 ≠ []) (hne2g : g2 ≠ []) (hne2f : f2 ≠ [])
    (hn1f : normalize_name f1 = []) (hn1g : normalize_name g1 = [])
    (hn2f : normalize_name f2 = []) (hn2g : normalize_name g2 = []) :
    (read_unique_names [(g1, f1), (g2, f2)]).length = 1 := by
  unfold read_unique_names
  rw [(perm_insertionSortB _).length_eq, List.length_map, List.length_map]
  have hv1 : ¬(pyStrip (g1, f1).1 = [] ∨ pyStrip (g1, f1).2 = []) := by
    show ¬(pyStrip g1 = [] ∨ pyStrip f1 = [])
    rw [hs1g, hs1f]
    simp [hne1g, hne1f]
  have hv2 : ¬(pyStrip (g2, f2).1 = [] ∨ pyStrip (g2, f2).2 = []) := by
    show ¬(pyStrip g2 = [] ∨ pyStrip f2 = [])
    rw [hs2g, hs2f]
    simp [hne2g, hne2f]
  have hst1 : processRow ⟨[], []⟩ (g1, f1) =
      ⟨[((normalize_name f1, normalize_name g1), (f1, g1))], []⟩ := by
    rw [processRow_new ⟨[], []⟩ (g1, f1) hv1 (lookupD_nil _)]
    show (⟨[] ++ [((normalize_name (pyStrip f1), normalize_name (pyStrip g1)),
        (pyStrip f1, pyStrip g1))], []⟩ : RState) = _
    rw [hs1f, hs1g, List.nil_append]
  show ((List.foldl processRow ⟨[], []⟩ [(g1, f1), (g2, f2)]).dict).length = 1
  rw [List.foldl_cons, List.foldl_cons, List.foldl_nil, hst1]
  have hk1 : (normalize_name f1, normalize_name g1) = (([] : PyStr), ([] : PyStr)) := by
    rw [hn1f, hn1g]
  have hl2 : lookupD [((normalize_name f1, normalize_name g1), (f1, g1))]
      (normalize_name (pyStrip (g2, f2).2), normalize_name (pyStrip (g2, f2).1)) =
      some (f1, g1) := by
    show lookupD _ (normalize_name (pyStrip f2), normalize_name (pyStrip g2)) = _
    rw [hs2f, hs2g, hn2f, hn2g, lookupD_cons, if_pos hk1]
  by_cases hgt : accentScore (pyStrip (g2, f2).2, pyStrip (g2, f2).1) >
      accentScore (f1, g1)
  · rw [processRow_dup_replace _ _ _ hv2 hl2 hgt]
    show (setD [((normalize_name f1, normalize_name g1), (f1, g1))]
        (normalize_name (pyStrip f2), normalize_name (pyStrip g2))
        (pyStrip f2, pyStrip g2)).length = 1
    rw [hs2f, hs2g, hn2f, hn2g, setD_cons, if_pos hk1]
    rfl
  · rw [processRow_dup_keep _ _ _ hv2 hl2 hgt]
    rfl

/-- C10 witness: two entirely unrelated CJK names — family and given names
made of the ideographs for middle, person, mountain and water, none of which
has an ASCII projection — collide on the empty folded key and only one
survives. -/
theorem empty_fold_collision_witness :
    (normalize_name [20013] = [] ∧ normalize_name [23665] = []) ∧
      (read_unique_names [([20154], [20013]), ([27700], [23665])]).length = 1 :=
  ⟨⟨by decide, by decide⟩,
    empty_fold_collision [20154] [20013] [27700] [23665]
      (by decide) (by decide) (by decide) (by decide)
      (by decide) (by decide) (by decide) (by decide)
      (by decide) (by decide) (by decide) (by decide)⟩
